import Mathlib

/-!
lil-shell: the main loop and the pipeline executor.

A shallow embedding of `main.go`: the read-eval loop body (`main`), `startCommand`
and `runPipedCommands`.  Child processes, `$PATH` lookup and the working directory
are external; they are supplied by an environment record `Env` that answers what
each operating-system call returns.  Writes to the terminal are not part of the
modelled state.

`ParseInput` and `GetPipeSeparatedCommands` are called by `main` and exercised by
`main_test.go`; their bodies live in another file of the repository and are modelled
from the specification, then checked against the test tables.
-/

namespace LilShell

/-! ## Processes and the `os/exec` calls used by the shell -/

/-- What a started child process eventually does. -/
inductive ProcOutcome where
  /-- The child ran to completion and called exit with this code. -/
  | exited (code : Nat)
  /-- The child was terminated by a signal: there is no exit code to read. -/
  | signaled
  /-- The wait system call itself failed: no process state was collected. -/
  | waitError
  deriving DecidableEq, Repr

/-- A Go `error` value as returned by `(*exec.Cmd).Wait`.  An `*exec.ExitError` is a
pointer, so it carries the address of the struct it points to. -/
inductive GoError where
  | exitError (ptr : Nat) (outcome : ProcOutcome)
  | other
  deriving DecidableEq, Repr

/-- `(*exec.Cmd).Wait`: nil exactly when the child exited with status 0; a freshly
allocated `*exec.ExitError` (at address `heap`) when it exited with a non-zero status or
was signaled; another error when the process could not be waited on. -/
def cmdWait (heap : Nat) : ProcOutcome → Option GoError
  | .exited 0 => none
  | .exited (c + 1) => some (.exitError heap (.exited (c + 1)))
  | .signaled => some (.exitError heap .signaled)
  | .waitError => some .other

/-- `(*os.ProcessState).ExitCode`: the exit code of an exited process, and -1 when the
process was signaled or the state is nil. -/
def exitCode : ProcOutcome → Int
  | .exited c => (c : Int)
  | .signaled => -1
  | .waitError => -1

/-- `errors.Is(err, target)` for a `target` that is a pointer to an `exec.ExitError`
stored at address `target`.  `*exec.ExitError` has no `Is` and no `Unwrap` method, so
the only test made is equality of the two pointers. -/
def errorsIs (err : GoError) (target : Nat) : Bool :=
  match err with
  | .exitError ptr _ => ptr == target
  | .other => false

/-- The stream a child's standard descriptor is connected to.  `unset` is the nil
field of `exec.Cmd`, which `os/exec` connects to the null device. -/
inductive Stream where
  | unset
  | osStdin
  | osStdout
  | osStderr
  | pipeRead (k : Nat)
  | pipeWrite (k : Nat)
  deriving DecidableEq, Repr

/-- The fields of `exec.Cmd` the shell sets. -/
structure Cmd where
  name : String
  args : List String
  stdin : Stream
  stdout : Stream
  stderr : Stream
  deriving DecidableEq, Repr

/-- `exec.Command(name, args...)`: all three streams are nil. -/
def execCommand (name : String) (args : List String) : Cmd :=
  { name := name, args := args, stdin := .unset, stdout := .unset, stderr := .unset }

/-- `(*exec.Cmd).StdoutPipe` of stage `k`: sets `Stdout` to the write end of a new pipe
and returns its read end. -/
def stdoutPipe (c : Cmd) (k : Nat) : Cmd × Stream :=
  ({ c with stdout := .pipeWrite k }, .pipeRead k)

/-- The observable process events of a run, in order.  `start i c` is a successful
`Start` of stage `i` configured as `c`; `wait i` is a call of `Wait` on stage `i`. -/
inductive Event where
  | start (stage : Nat) (cmd : Cmd)
  | wait (stage : Nat)
  deriving DecidableEq, Repr

/-- An event without the command configuration. -/
inductive Ev where
  | start (stage : Nat)
  | wait (stage : Nat)
  deriving DecidableEq, Repr

/-- Forget the command configuration of an event. -/
def Event.tag : Event → Ev
  | .start i _ => .start i
  | .wait i => .wait i

/-- The stages started by a sequence of events, in order. -/
def startedStages : List Event → List Nat
  | [] => []
  | .start i _ :: es => i :: startedStages es
  | .wait _ :: es => startedStages es

/-- What the operating system answers for one stage (by position in the line). -/
structure StageEnv where
  /-- `StdoutPipe` succeeds. -/
  pipeOk : Bool
  /-- `Start` succeeds. -/
  startOk : Bool
  /-- What the process does once started. -/
  outcome : ProcOutcome
  deriving DecidableEq, Repr

/-- The result of `os.Chdir`. -/
inductive ChdirResult where
  | ok (newCwd : String)
  | notExist
  | pathError
  | otherError
  deriving DecidableEq, Repr

/-- The external collaborators of the shell. -/
structure Env where
  /-- The `findInPath` helper: the executable path, or the empty string. -/
  findInPath : String → String
  /-- The behaviour of the process at each stage; a single command is stage 0. -/
  stage : Nat → StageEnv
  /-- The next free heap address when `Wait` allocates its error. -/
  heap : Nat
  /-- The `expandHome` helper: the expanded path, or the empty string. -/
  expandHome : String → String
  /-- The function `os.Chdir`, given the current directory and the target. -/
  chdir : String → String → ChdirResult
  /-- Whether `os.Getwd` succeeds. -/
  getwdOk : Bool

/-! ## `runPipedCommands` -/

/-- The errors `runPipedCommands` builds with `fmt.Errorf`; `cmd` is the command name
formatted into the message. -/
inductive PipeError where
  /-- The message `command "cmd" not found`. -/
  | notFound (cmd : String)
  /-- The message `failed creating pipe for cmd stdout: ...`. -/
  | pipeFailed (cmd : String)
  /-- The message `failed starting command cmd: ...`. -/
  | startFailed (cmd : String)
  /-- The message `cmd: failed: err`. -/
  | waitFailed (cmd : String) (err : GoError)
  deriving DecidableEq, Repr

/-- How a call of `runPipedCommands` ends: it returns nil, returns an error, or
indexes a slice out of range. -/
inductive PipeResult where
  | ok
  | error (e : PipeError)
  | indexOutOfRange
  deriving DecidableEq, Repr

/-- A run of `runPipedCommands`: the process events it caused and how it ended. -/
structure PipeRun where
  events : List Event
  result : PipeResult
  deriving DecidableEq, Repr

/-- Put events in front of a run. -/
def PipeRun.after (es : List Event) (r : PipeRun) : PipeRun :=
  { events := es ++ r.events, result := r.result }

/-- The `for i := 1; i < len(commands); i++` loop of `runPipedCommands` followed by the
final `Wait`.  `n` is `len(commands)`, `i` the loop counter, `rest` is `commands[i:]`,
`prev` is `previousStdoutPipe`, `lastcmd` the variable of that name; `cmdT` is the
process of stage `i - 1`. -/
def pipeLoop (env : Env) (n : Nat) :
    Nat → List (List String) → Stream → String → PipeRun
  | i, [], _, lastcmd =>
    match cmdWait env.heap (env.stage (i - 1)).outcome with
    | some err => ⟨[.wait (i - 1)], .error (.waitFailed lastcmd err)⟩
    | none => ⟨[.wait (i - 1)], .ok⟩
  | i, c :: rest, prev, _ =>
    match c with
    | [] => ⟨[], .indexOutOfRange⟩
    | cmd :: args =>
      if env.findInPath cmd = "" then ⟨[], .error (.notFound cmd)⟩
      else
        let nextCmd := { execCommand cmd args with stdin := prev }
        if i < n - 1 then
          if (env.stage i).pipeOk then
            let nextCmd := { (stdoutPipe nextCmd i).1 with stderr := .osStderr }
            if (env.stage i).startOk then
              match cmdWait env.heap (env.stage (i - 1)).outcome with
              | some err =>
                ⟨[.start i nextCmd, .wait (i - 1)], .error (.waitFailed cmd err)⟩
              | none =>
                (pipeLoop env n (i + 1) rest (.pipeRead i) cmd).after
                  [.start i nextCmd, .wait (i - 1)]
            else ⟨[], .error (.startFailed cmd)⟩
          else ⟨[], .error (.pipeFailed cmd)⟩
        else
          let nextCmd := { nextCmd with stdout := .osStdout, stderr := .osStderr }
          if (env.stage i).startOk then
            match cmdWait env.heap (env.stage (i - 1)).outcome with
            | some err =>
              ⟨[.start i nextCmd, .wait (i - 1)], .error (.waitFailed cmd err)⟩
            | none =>
              (pipeLoop env n (i + 1) rest prev cmd).after
                [.start i nextCmd, .wait (i - 1)]
          else ⟨[], .error (.startFailed cmd)⟩

/-- The function `runPipedCommands(commands ...[]string) error`. -/
def runPipedCommands (env : Env) (commands : List (List String)) : PipeRun :=
  match commands with
  | [] => ⟨[], .indexOutOfRange⟩
  | [] :: _ => ⟨[], .indexOutOfRange⟩
  | (cmd :: args) :: rest =>
    if env.findInPath cmd = "" then ⟨[], .error (.notFound cmd)⟩
    else
      let cmdT := execCommand cmd args
      if (env.stage 0).pipeOk then
        let cmdT := (stdoutPipe cmdT 0).1
        if (env.stage 0).startOk then
          (pipeLoop env commands.length 1 rest (.pipeRead 0) "").after [.start 0 cmdT]
        else ⟨[], .error (.startFailed cmd)⟩
      else ⟨[], .error (.pipeFailed cmd)⟩

/-! ## The tokenizer and the pipeline splitter -/

/-- Modelled from the spec: the separator characters of the tokenizer (whose body is
not among the sources): space, tab, carriage return and newline. -/
def isSeparator (c : Char) : Bool :=
  c.toNat = 32 || c.toNat = 9 || c.toNat = 13 || c.toNat = 10

/-- The single quote character. -/
def singleQuote : Char := Char.ofNat 39

/-- The double quote character. -/
def doubleQuote : Char := Char.ofNat 34

/-- The quoting mode of the tokenizer. -/
inductive ScanMode where
  | plain
  | single
  | double
  deriving DecidableEq, Repr

/-- Modelled from the spec: the scanning loop of `ParseInput`, whose body is not among
the sources.  `cur` is the token in progress (`none` between tokens).  Outside quotes a
separator ends the token in progress; a single quote opens a region that is copied
verbatim up to the next single quote, both quotes being dropped; a double quote opens a
region copied up to the next double quote, both quotes being kept.  A quote that is
never closed takes the rest of the line. -/
def scanTokens : List Char → ScanMode → Option (List Char) → List String
  | [], _, none => []
  | [], _, some tok => [String.mk tok]
  | c :: cs, .plain, cur =>
    if isSeparator c then
      match cur with
      | none => scanTokens cs .plain none
      | some tok => String.mk tok :: scanTokens cs .plain none
    else if c = singleQuote then scanTokens cs .single (some (cur.getD []))
    else if c = doubleQuote then scanTokens cs .double (some (cur.getD [] ++ [c]))
    else scanTokens cs .plain (some (cur.getD [] ++ [c]))
  | c :: cs, .single, cur =>
    if c = singleQuote then scanTokens cs .plain cur
    else scanTokens cs .single (some (cur.getD [] ++ [c]))
  | c :: cs, .double, cur =>
    if c = doubleQuote then scanTokens cs .plain (some (cur.getD [] ++ [c]))
    else scanTokens cs .double (some (cur.getD [] ++ [c]))

/-- Modelled from the spec: the tokenizer (whose body is not among the sources) never
makes a trailing carriage return or newline part of a token; they are removed from the
end of the line first. -/
def stripLineEnd (cs : List Char) : List Char :=
  (cs.reverse.dropWhile fun c => c.toNat = 13 || c.toNat = 10).reverse

/-- Modelled from the spec: `ParseInput`, the tokenizer called by `main`, whose body is
not among the sources.  The empty list stands for the nil slice ("no tokens"). -/
def ParseInput (input : String) : List String :=
  scanTokens (stripLineEnd input.toList) .plain none

/-- Modelled from the spec: the accumulation loop of `GetPipeSeparatedCommands` (whose
body is not among the sources); `cur` is the argument vector in progress. -/
def splitTokens : List String → List String → List (List String)
  | [], cur => [cur]
  | t :: ts, cur =>
    if t = "|" then cur :: splitTokens ts [] else splitTokens ts (cur ++ [t])

/-- Modelled from the spec: `GetPipeSeparatedCommands`, the pipeline splitter called by
`main`, whose body is not among the sources.  Tokens are accumulated into the current
argument vector; a token equal to `"|"` closes it and starts a new one; the end of the
input closes the last one.  Zero tokens give the nil slice. -/
def GetPipeSeparatedCommands (tokens : List String) : List (List String) :=
  if tokens = [] then [] else splitTokens tokens []

/-- No `"|"` token is first, last, or next to another `"|"` token. -/
def PipesWellPlaced (tokens : List String) : Prop :=
  tokens.head? ≠ some "|" ∧ tokens.getLast? ≠ some "|" ∧
    tokens.Chain' fun a b => ¬ (a = "|" ∧ b = "|")

instance (tokens : List String) : Decidable (PipesWellPlaced tokens) :=
  inferInstanceAs (Decidable (_ ∧ _ ∧ _))

/-! ## The main loop -/

/-- The names in the `builtins` table. -/
def builtins : List String := ["exit", "type", "echo", "pwd", "cd", "lr"]

/-- `strconv.Atoi`: an optional sign followed by at least one decimal digit, the value
being in the range of a 64-bit `int`; anything else is an error. -/
def Atoi (s : String) : Option Int :=
  let cs := s.toList
  let neg : Bool := cs.head?.map Char.toNat = some 45
  let ds := if cs.head?.map Char.toNat = some 45 ∨ cs.head?.map Char.toNat = some 43
    then cs.tail else cs
  if ds = [] then none
  else if ds.all fun c => 48 ≤ c.toNat && c.toNat ≤ 57 then
    let v : Int := (ds.foldl (fun acc c => 10 * acc + (c.toNat - 48)) 0 : Nat)
    let n : Int := if neg then -v else v
    if n < -9223372036854775808 ∨ 9223372036854775807 < n then none else some n
  else none

/-- The interpreter state that survives an iteration: the global `lr` and the working
directory of the process. -/
structure ShellState where
  lr : Int
  cwd : String
  deriving DecidableEq, Repr

/-- How one iteration of the loop ends: the loop goes on with a new state, the process
ends through `os.Exit`, or a slice is indexed out of range. -/
inductive Outcome where
  | next (st : ShellState)
  | terminated (code : Int)
  | indexOutOfRange
  deriving DecidableEq, Repr

/-- One iteration: the process events it caused and how it ended. -/
structure Iteration where
  events : List Event
  outcome : Outcome
  deriving DecidableEq, Repr

/-- The function `startCommand`: set the three streams, then `Start`. -/
def startCommand (env : Env) (cmd : Cmd) (inS outS errS : Stream) : Option Cmd :=
  let cmd := { cmd with stdout := outS, stdin := inS, stderr := errS }
  if (env.stage 0).startOk then some cmd else none

/-- The `switch cmd` statement of `main`, for a single command `cmd` with arguments
`args`. -/
def runCommand (env : Env) (st : ShellState) (cmd : String) (args : List String) :
    Iteration :=
  if cmd = "exit" then
    match args with
    | [] => ⟨[], .terminated 0⟩
    | a :: _ =>
      match Atoi a with
      | none => ⟨[], .next { st with lr := 1 }⟩
      | some ret => ⟨[], .terminated ret⟩
  else if cmd = "echo" then ⟨[], .next { st with lr := 0 }⟩
  else if cmd = "type" then
    match args with
    | [] => ⟨[], .next { st with lr := 1 }⟩
    | a :: _ =>
      if a ∈ builtins then ⟨[], .next { st with lr := 0 }⟩
      else if env.findInPath a = "" then ⟨[], .next { st with lr := 1 }⟩
      else ⟨[], .next { st with lr := 0 }⟩
  else if cmd = "pwd" then
    if env.getwdOk then ⟨[], .next { st with lr := 0 }⟩
    else ⟨[], .next { st with lr := 1 }⟩
  else if cmd = "cd" then
    let args := if args.length < 1 then args ++ ["~"] else args
    match args with
    | [] => ⟨[], .indexOutOfRange⟩
    | a :: _ =>
      let dirPath := env.expandHome a
      if dirPath = "" then ⟨[], .next { st with lr := 1 }⟩
      else
        match env.chdir st.cwd dirPath with
        | .ok newCwd => ⟨[], .next { lr := 0, cwd := newCwd }⟩
        | _ => ⟨[], .next { st with lr := 1 }⟩
  else if cmd = "lr" then ⟨[], .next st⟩
  else
    if env.findInPath cmd = "" then ⟨[], .next { st with lr := 1 }⟩
    else
      match startCommand env (execCommand cmd args) .osStdin .osStdout .osStderr with
      | none => ⟨[], .next { st with lr := 1 }⟩
      | some cmdT =>
        match cmdWait env.heap (env.stage 0).outcome with
        | some err =>
          -- `var exitErr exec.ExitError` is a new variable, allocated after `err`
          let exitErr := env.heap + 1
          if !errorsIs err exitErr then
            ⟨[.start 0 cmdT, .wait 0], .next { st with lr := 1 }⟩
          else
            ⟨[.start 0 cmdT, .wait 0],
              .next { st with lr := exitCode (env.stage 0).outcome }⟩
        | none =>
          ⟨[.start 0 cmdT, .wait 0],
            .next { st with lr := exitCode (env.stage 0).outcome }⟩

/-- The body of the loop of `main` once the line is tokenized and split: `tokens` is
the non-nil result of `ParseInput`, `commands` the result of
`GetPipeSeparatedCommands`. -/
def mainBody (env : Env) (st : ShellState) (tokens : List String)
    (commands : List (List String)) : Iteration :=
  if 1 < commands.length then
    let run := runPipedCommands env commands
    match run.result with
    | .indexOutOfRange => ⟨run.events, .indexOutOfRange⟩
    | .error _ => ⟨run.events, .next { st with lr := 1 }⟩
    | .ok => ⟨run.events, .next { st with lr := 0 }⟩
  else
    match commands with
    | [] => ⟨[], .indexOutOfRange⟩
    | [] :: _ => ⟨[], .indexOutOfRange⟩
    | (cmd :: _) :: _ =>
      if cmd = "" then ⟨[], .next st⟩
      else runCommand env st cmd tokens.tail

/-- What `ReadString` gives the loop: end of input, another error, or a line. -/
inductive ReadResult where
  | eof
  | failed
  | line (input : String)
  deriving DecidableEq, Repr

/-- One iteration of the loop of `main`, for any tokenizer `parse` and splitter
`split`. -/
def mainIterationWith (parse : String → List String)
    (split : List String → List (List String)) (env : Env) (st : ShellState) :
    ReadResult → Iteration
  | .eof => ⟨[], .terminated 0⟩
  | .failed => ⟨[], .next st⟩
  | .line input =>
    let tokens := parse input
    if tokens = [] then ⟨[], .next st⟩
    else mainBody env st tokens (split tokens)

/-- One iteration of the loop of `main`. -/
def mainIteration (env : Env) (st : ShellState) (rd : ReadResult) : Iteration :=
  mainIterationWith ParseInput GetPipeSeparatedCommands env st rd

/-- The invariant of a pipeline value: at least one argument vector, none of them
empty. -/
def IsPipeline (commands : List (List String)) : Prop :=
  commands ≠ [] ∧ ∀ c ∈ commands, c ≠ []

instance (commands : List (List String)) : Decidable (IsPipeline commands) :=
  inferInstanceAs (Decidable (_ ∧ _))

/-! ## Predicates used in the statements -/

/-- The command name of an argument vector exists and `findInPath` finds it. -/
def Resolves (env : Env) : List String → Prop
  | [] => False
  | cmd :: _ => env.findInPath cmd ≠ ""

instance (env : Env) : (c : List String) → Decidable (Resolves env c)
  | [] => isFalse fun h => h
  | cmd :: _ => inferInstanceAs (Decidable (env.findInPath cmd ≠ ""))

/-- Every stage's command name resolves. -/
def AllResolve (env : Env) (commands : List (List String)) : Prop :=
  ∀ c ∈ commands, Resolves env c

instance (env : Env) (commands : List (List String)) :
    Decidable (AllResolve env commands) :=
  inferInstanceAs (Decidable (∀ c ∈ commands, Resolves env c))

/-- Each of the first `n` stages of a pipeline of `total` stages starts: its stdout pipe
is created (none is made for the last stage) and `Start` succeeds. -/
def AllStart (env : Env) (n total : Nat) : Prop :=
  ∀ i < n, (i + 1 < total → (env.stage i).pipeOk = true) ∧ (env.stage i).startOk = true

instance (env : Env) (n total : Nat) : Decidable (AllStart env n total) :=
  inferInstanceAs (Decidable (∀ i < n, _))

/-- `Wait` returns nil for each of the first `n` stages. -/
def AllWait (env : Env) (n : Nat) : Prop :=
  ∀ i < n, cmdWait env.heap (env.stage i).outcome = none

instance (env : Env) (n : Nat) : Decidable (AllWait env n) :=
  inferInstanceAs (Decidable (∀ i < n, _))

/-- The events after stage `i - 1` was started, when `k` stages remain: each remaining
stage is started and then its predecessor is waited on; the last stage is waited on at
the end. -/
def laterStages (i : Nat) : Nat → List Ev
  | 0 => [.wait (i - 1)]
  | k + 1 => .start i :: .wait (i - 1) :: laterStages (i + 1) k

/-- The order `start 0, start 1, wait 0, start 2, wait 1, ..., start (n-1), wait (n-2),
wait (n-1)` for a pipeline of `n` stages. -/
def joinOrder (n : Nat) : List Ev :=
  .start 0 :: laterStages 1 (n - 1)

/-- The start and wait events of a run of `runPipedCommands`, in order. -/
def eventTrace (env : Env) (commands : List (List String)) : List Ev :=
  (runPipedCommands env commands).events.map Event.tag

/-- An environment like `envOf` in which the one name `missing` is not found. -/
def envMissing (missing : String) (outcomes : Nat → ProcOutcome) : Env :=
  { findInPath := fun s => if s = missing then "" else "/bin/" ++ s
    stage := fun i => ⟨true, true, outcomes i⟩
    heap := 0
    expandHome := fun s => s
    chdir := fun _ p => .ok p
    getwdOk := true }

/-- The three-stage pipeline of the test table. -/
def psGrepAwk : List (List String) :=
  [["ps", "aux"], ["grep", "go"], ["awk", "\x7bprint $1 $2\x7d"]]

/-- An environment in which everything resolves and starts, with the given outcomes
per stage. -/
def envOf (outcomes : Nat → ProcOutcome) : Env :=
  { findInPath := fun s => "/bin/" ++ s
    stage := fun i => ⟨true, true, outcomes i⟩
    heap := 0
    expandHome := fun s => s
    chdir := fun _ p => .ok p
    getwdOk := true }

/-! ## The tables of `main_test.go` -/

theorem ParseInput_test_newline : ParseInput "\n" = [] := by decide

theorem ParseInput_test_echo : ParseInput " echo hi \n" = ["echo", "hi"] := by decide

theorem ParseInput_test_crlf : ParseInput " echo hi \r\n" = ["echo", "hi"] := by decide

theorem ParseInput_test_pipe :
    ParseInput " ps -ef | \t  less \r\n" = ["ps", "-ef", "|", "less"] := by decide

theorem ParseInput_test_single_quote :
    ParseInput "cat main.go | awk '\x7bprint $1 $2\x7d'\n"
      = ["cat", "main.go", "|", "awk", "\x7bprint $1 $2\x7d"] := by decide

theorem ParseInput_test_double_quote :
    ParseInput "echo \"hello world\" | sed --expression='s/hello/hi/g'"
      = ["echo", "\"hello world\"", "|", "sed", "--expression=s/hello/hi/g"] := by
  decide

theorem ParseInput_test_three_stages :
    ParseInput "ls -lsa | column -t | awk '\x7bprint $10\x7d'"
      = ["ls", "-lsa", "|", "column", "-t", "|", "awk", "\x7bprint $10\x7d"] := by
  decide

theorem GetPipeSeparatedCommands_test_newline :
    GetPipeSeparatedCommands (ParseInput "\n") = [] := by decide

theorem GetPipeSeparatedCommands_test_echo :
    GetPipeSeparatedCommands (ParseInput "echo hi") = [["echo", "hi"]] := by decide

theorem GetPipeSeparatedCommands_test_two_stages :
    GetPipeSeparatedCommands (ParseInput "ps -ef | less\n") = [["ps", "-ef"], ["less"]] := by
  decide

theorem GetPipeSeparatedCommands_test_three_stages :
    GetPipeSeparatedCommands (ParseInput "ps aux  |   grep go  | awk '\x7bprint $1 $2\x7d'")
      = [["ps", "aux"], ["grep", "go"], ["awk", "\x7bprint $1 $2\x7d"]] := by
  decide

/-! ## Lemmas about the pipeline loop -/

/-- `Wait` returns nil exactly for a child that exited with code 0. -/
theorem cmdWait_eq_none_iff (heap : Nat) (o : ProcOutcome) :
    cmdWait heap o = none ↔ o = .exited 0 := by
  cases o with
  | exited c => cases c <;> simp [cmdWait]
  | signaled => simp [cmdWait]
  | waitError => simp [cmdWait]

theorem after_events (es : List Event) (r : PipeRun) :
    (r.after es).events = es ++ r.events := rfl

theorem after_result (es : List Event) (r : PipeRun) :
    (r.after es).result = r.result := rfl

/-- One turn of the loop whose stage resolves and starts: the stage is started, its
predecessor is waited on, and the loop goes on unless that wait fails. -/
theorem pipeLoop_cons (env : Env) (n i : Nat) (cmd : String) (args : List String)
    (rest : List (List String)) (prev : Stream) (lc : String)
    (hres : env.findInPath cmd ≠ "") (hpipe : i < n - 1 → (env.stage i).pipeOk = true)
    (hstart : (env.stage i).startOk = true) :
    ∃ nextCmd prev2,
      pipeLoop env n i ((cmd :: args) :: rest) prev lc =
        match cmdWait env.heap (env.stage (i - 1)).outcome with
        | some err => ⟨[.start i nextCmd, .wait (i - 1)], .error (.waitFailed cmd err)⟩
        | none => (pipeLoop env n (i + 1) rest prev2 cmd).after
            [.start i nextCmd, .wait (i - 1)] := by
  by_cases h : i < n - 1
  · exact ⟨_, _, by simp [pipeLoop, hres, hpipe h, hstart, h]; rfl⟩
  · exact ⟨_, _, by simp [pipeLoop, hres, hstart, h]; rfl⟩

theorem pipeLoop_all_ok (env : Env) (n : Nat) (rest : List (List String)) :
    ∀ (i : Nat) (prev : Stream) (lc : String), 1 ≤ i →
      (∀ c ∈ rest, Resolves env c) →
      (∀ j, i ≤ j → j < i + rest.length →
        (j < n - 1 → (env.stage j).pipeOk = true) ∧ (env.stage j).startOk = true) →
      (∀ j, i - 1 ≤ j → j < i + rest.length →
        cmdWait env.heap (env.stage j).outcome = none) →
      (pipeLoop env n i rest prev lc).events.map Event.tag = laterStages i rest.length ∧
        (pipeLoop env n i rest prev lc).result = .ok := by
  induction rest with
  | nil =>
    intro i prev lc hi _ _ hw
    have h := hw (i - 1) (Nat.le_refl _) (by simp; omega)
    simp [pipeLoop, h, laterStages, Event.tag]
  | cons c rest ih =>
    intro i prev lc hi hres hst hw
    cases c with
    | nil => exact absurd (hres [] (by simp)) (fun h => h)
    | cons cmd args =>
      have hr : env.findInPath cmd ≠ "" := hres (cmd :: args) (by simp)
      have hs := hst i (Nat.le_refl _) (by simp)
      obtain ⟨nc, p2, heq⟩ := pipeLoop_cons env n i cmd args rest prev lc hr hs.1 hs.2
      have hw0 := hw (i - 1) (Nat.le_refl _) (by simp; omega)
      rw [heq, hw0]
      have := ih (i + 1) p2 cmd (by omega) (fun c hc => hres c (by simp [hc]))
        (fun j h1 h2 => hst j (by omega) (by simp; omega))
        (fun j h1 h2 => hw j (by omega) (by simp; omega))
      simp [after_events, after_result, this, laterStages, Event.tag]

/-- With every stage resolving and starting, the loop never indexes out of range, and
it returns nil exactly when every wait it makes returns nil. -/
theorem pipeLoop_result (env : Env) (n : Nat) (rest : List (List String)) :
    ∀ (i : Nat) (prev : Stream) (lc : String), 1 ≤ i →
      (∀ c ∈ rest, Resolves env c) →
      (∀ j, i ≤ j → j < i + rest.length →
        (j < n - 1 → (env.stage j).pipeOk = true) ∧ (env.stage j).startOk = true) →
      ((pipeLoop env n i rest prev lc).result = .ok ∨
          ∃ e, (pipeLoop env n i rest prev lc).result = .error e) ∧
        ((pipeLoop env n i rest prev lc).result = .ok ↔
          ∀ j, i - 1 ≤ j → j < i + rest.length →
            cmdWait env.heap (env.stage j).outcome = none) := by
  induction rest with
  | nil =>
    intro i prev lc hi _ _
    cases h : cmdWait env.heap (env.stage (i - 1)).outcome with
    | none =>
      simp only [pipeLoop, h, List.length_nil, Nat.add_zero, true_or, true_and, true_iff]
      intro j h1 h2
      have : j = i - 1 := by omega
      rw [this, h]
    | some err =>
      simp only [pipeLoop, h, List.length_nil, Nat.add_zero]
      refine ⟨Or.inr ⟨_, rfl⟩, ?_⟩
      constructor
      · intro h0; cases h0
      · intro hw
        have := hw (i - 1) (Nat.le_refl _) (by omega)
        rw [h] at this; cases this
  | cons c rest ih =>
    intro i prev lc hi hres hst
    cases c with
    | nil => exact absurd (hres [] (by simp)) (fun h => h)
    | cons cmd args =>
      have hr : env.findInPath cmd ≠ "" := hres (cmd :: args) (by simp)
      have hs := hst i (Nat.le_refl _) (by simp)
      obtain ⟨nc, p2, heq⟩ := pipeLoop_cons env n i cmd args rest prev lc hr hs.1 hs.2
      rw [heq]
      cases h : cmdWait env.heap (env.stage (i - 1)).outcome with
      | some err =>
        refine ⟨Or.inr ⟨_, rfl⟩, ?_⟩
        constructor
        · intro h0; cases h0
        · intro hw
          have := hw (i - 1) (Nat.le_refl _) (by simp; omega)
          rw [h] at this; cases this
      | none =>
        have h3 := ih (i + 1) p2 cmd (by omega) (fun c hc => hres c (by simp [hc]))
          (fun j h1 h2 => hst j (by omega) (by simp; omega))
        simp only [after_result]
        refine ⟨h3.1, ?_⟩
        rw [h3.2]
        constructor
        · intro hw j h1 h2
          by_cases hj : j = i - 1
          · rw [hj, h]
          · exact hw j (by omega) (by simp at h2; omega)
        · intro hw j h1 h2
          exact hw j (by omega) (by simp; omega)

/-- When the first stage that does not resolve is reached after successful starts and
waits, the loop returns the "not found" error for it, having started the stages before
it. -/
theorem pipeLoop_notFound (env : Env) (n : Nat) (cmd : String) (args : List String)
    (post : List (List String)) (hnf : env.findInPath cmd = "")
    (pre : List (List String)) :
    ∀ (i : Nat) (prev : Stream) (lc : String), 1 ≤ i →
      (∀ c ∈ pre, Resolves env c) →
      (∀ j, i ≤ j → j < i + pre.length →
        (j < n - 1 → (env.stage j).pipeOk = true) ∧ (env.stage j).startOk = true) →
      (∀ j, i - 1 ≤ j → j + 1 < i + pre.length →
        cmdWait env.heap (env.stage j).outcome = none) →
      (pipeLoop env n i (pre ++ (cmd :: args) :: post) prev lc).result
          = .error (.notFound cmd) ∧
        startedStages (pipeLoop env n i (pre ++ (cmd :: args) :: post) prev lc).events
          = List.range' i pre.length := by
  induction pre with
  | nil =>
    intro i prev lc _ _ _ _
    simp [pipeLoop, hnf, startedStages]
  | cons c pre ih =>
    intro i prev lc hi hres hst hw
    cases c with
    | nil => exact absurd (hres [] (by simp)) (fun h => h)
    | cons cmd2 args2 =>
      have hr : env.findInPath cmd2 ≠ "" := hres (cmd2 :: args2) (by simp)
      have hs := hst i (Nat.le_refl _) (by simp)
      obtain ⟨nc, p2, heq⟩ :=
        pipeLoop_cons env n i cmd2 args2 (pre ++ (cmd :: args) :: post) prev lc hr hs.1 hs.2
      have hw0 := hw (i - 1) (Nat.le_refl _) (by simp; omega)
      rw [List.cons_append, heq, hw0]
      have h3 := ih (i + 1) p2 cmd2 (by omega) (fun c hc => hres c (by simp [hc]))
        (fun j h1 h2 => hst j (by omega) (by simp; omega))
        (fun j h1 h2 => hw j (by omega) (by simp; omega))
      simp [after_events, after_result, h3, startedStages, List.range']



/-! ## Lemmas about the expected order of events -/

theorem laterStages_count_start (k : Nat) :
    ∀ (i j : Nat), (laterStages i k).count (.start j) = if i ≤ j ∧ j < i + k then 1 else 0 := by
  induction k with
  | zero =>
    intro i j
    rw [if_neg (by omega)]
    simp [laterStages, List.count_cons]
  | succ k ih =>
    intro i j
    simp only [laterStages, List.count_cons, ih]
    by_cases h : i = j
    · subst h
      have e1 : ¬ (i + 1 ≤ i ∧ i < i + 1 + k) := by omega
      have e2 : i ≤ i ∧ i < i + (k + 1) := by omega
      simp [e1, e2]
    · have : ¬ (Ev.start i = Ev.start j) := by simpa using h
      simp only [beq_iff_eq, this, if_false, reduceCtorEq, Nat.add_zero]
      split_ifs <;> omega

theorem laterStages_count_wait (k : Nat) :
    ∀ (i j : Nat), 1 ≤ i →
      (laterStages i k).count (.wait j) = if i - 1 ≤ j ∧ j < i + k then 1 else 0 := by
  induction k with
  | zero =>
    intro i j hi
    by_cases h : i - 1 = j
    · subst h
      rw [if_pos (by omega)]
      simp [laterStages]
    · have : ¬ (Ev.wait (i - 1) = Ev.wait j) := by simpa using h
      rw [if_neg (by omega)]
      simp [laterStages, List.count_cons, this]
  | succ k ih =>
    intro i j hi
    simp only [laterStages, List.count_cons, ih (i + 1) j (by omega)]
    by_cases h : i - 1 = j
    · subst h
      have e1 : ¬ (i + 1 - 1 ≤ i - 1 ∧ i - 1 < i + 1 + k) := by omega
      have e2 : i - 1 ≤ i - 1 ∧ i - 1 < i + (k + 1) := by omega
      simp only [e1, e2, if_true, if_false]
      simp
    · have : ¬ (Ev.wait (i - 1) = Ev.wait j) := by simpa using h
      simp only [beq_iff_eq, this, if_false, reduceCtorEq, Nat.add_zero]
      split_ifs <;> omega

theorem laterStages_indexOf_start (k : Nat) :
    ∀ (i j : Nat), i ≤ j → j < i + k →
      (laterStages i k).indexOf (.start j) = 2 * (j - i) := by
  induction k with
  | zero => intro i j h1 h2; omega
  | succ k ih =>
    intro i j h1 h2
    by_cases h : i = j
    · subst h; simp [laterStages]
    · have hne : Ev.start i ≠ Ev.start j := by simpa using h
      rw [laterStages, List.indexOf_cons_ne _ hne,
        List.indexOf_cons_ne _ (by simp), ih (i + 1) j (by omega) (by omega)]
      omega

theorem laterStages_indexOf_wait (k : Nat) :
    ∀ (i j : Nat), 1 ≤ i → i - 1 ≤ j → j < i + k →
      (laterStages i k).indexOf (.wait j)
        = if j + 1 = i + k then 2 * k else 2 * (j + 1 - i) + 1 := by
  induction k with
  | zero =>
    intro i j hi h1 h2
    have : j = i - 1 := by omega
    subst this
    rw [if_pos (by omega)]
    simp [laterStages]
  | succ k ih =>
    intro i j hi h1 h2
    by_cases h : i - 1 = j
    · subst h
      rw [laterStages, List.indexOf_cons_ne _ (by simp), List.indexOf_cons_self]
      split_ifs <;> omega
    · have hne : Ev.wait (i - 1) ≠ Ev.wait j := by simpa using h
      rw [laterStages, List.indexOf_cons_ne _ (by simp), List.indexOf_cons_ne _ hne,
        ih (i + 1) j (by omega) (by omega) (by omega)]
      split_ifs <;> omega

theorem runPipedCommands_cons (env : Env) (cmd : String) (args : List String)
    (rest : List (List String)) (hres : env.findInPath cmd ≠ "")
    (hpipe : (env.stage 0).pipeOk = true) (hstart : (env.stage 0).startOk = true) :
    runPipedCommands env ((cmd :: args) :: rest) =
      (pipeLoop env (rest.length + 1) 1 rest (.pipeRead 0) "").after
        [.start 0 (stdoutPipe (execCommand cmd args) 0).1] := by
  simp [runPipedCommands, hres, hpipe, hstart]

/-! ## The pipeline executor -/

/-- C4: for a pipeline of N >= 2 commands in which every resolve, start and wait
succeeds, `runPipedCommands` returns nil and its start and wait events are exactly
start 0, start 1, wait 0, start 2, wait 1, ..., start N-1, wait N-2, wait N-1; every
stage is started once and waited on once, and stage i is waited on after stage i+1 is
started and before stage i+2 is started. -/
theorem runPipedCommands_event_order (env : Env) (commands : List (List String))
    (hn : 2 ≤ commands.length) (hres : AllResolve env commands)
    (hstart : AllStart env commands.length commands.length)
    (hwait : AllWait env commands.length) :
    (runPipedCommands env commands).result = .ok ∧
      eventTrace env commands = joinOrder commands.length ∧
      (∀ i, i < commands.length →
        (eventTrace env commands).count (.start i) = 1 ∧
          (eventTrace env commands).count (.wait i) = 1) ∧
      (∀ i, i + 1 < commands.length →
        (eventTrace env commands).indexOf (.start (i + 1))
          < (eventTrace env commands).indexOf (.wait i)) ∧
      (∀ i, i + 2 < commands.length →
        (eventTrace env commands).indexOf (.wait i)
          < (eventTrace env commands).indexOf (.start (i + 2))) := by
  cases commands with
  | nil => simp at hn
  | cons c rest =>
    cases c with
    | nil => exact absurd (hres [] (by simp)) (fun h => h)
    | cons cmd args =>
      have hr : env.findInPath cmd ≠ "" := hres (cmd :: args) (by simp)
      have hs0 := hstart 0 (by simp)
      have hs : (env.stage 0).pipeOk = true ∧ (env.stage 0).startOk = true :=
        ⟨hs0.1 (by simpa using hn), hs0.2⟩
      have hloop := pipeLoop_all_ok env (rest.length + 1) rest 1 (.pipeRead 0) "" (by omega)
        (fun c hc => hres c (by simp [hc]))
        (fun j _ h2 => ⟨fun h3 => (hstart j (by simp; omega)).1 (by simp; omega),
          (hstart j (by simp; omega)).2⟩)
        (fun j _ h2 => hwait j (by simp; omega))
      have htrace : eventTrace env ((cmd :: args) :: rest)
          = joinOrder ((cmd :: args) :: rest).length := by
        simp [eventTrace, runPipedCommands_cons env cmd args rest hr hs.1 hs.2,
          after_events, hloop.1, joinOrder, Event.tag]
      have hlen : rest.length + 1 = ((cmd :: args) :: rest).length := by simp
      refine ⟨?_, htrace, ?_, ?_, ?_⟩
      · rw [runPipedCommands_cons env cmd args rest hr hs.1 hs.2, after_result]
        exact hloop.2
      · intro i hi
        rw [htrace, ← hlen]
        simp only [joinOrder, Nat.add_sub_cancel, List.count_cons,
          laterStages_count_start, laterStages_count_wait _ 1 i (Nat.le_refl _)]
        rw [← hlen] at hi
        constructor
        · by_cases h0 : i = 0
          · subst h0; simp
          · have : ¬ (Ev.start 0 = Ev.start i) := by
              simpa using fun h => h0 h.symm
            simp only [beq_iff_eq, this, if_false, Nat.add_zero]
            rw [if_pos (by omega)]
        · simp only [beq_iff_eq, reduceCtorEq, if_false, Nat.add_zero]
          rw [if_pos (by omega)]
      · intro i hi
        rw [htrace, ← hlen]
        rw [← hlen] at hi
        simp only [joinOrder, Nat.add_sub_cancel]
        rw [List.indexOf_cons_ne _ (by simp), List.indexOf_cons_ne _ (by simp),
          laterStages_indexOf_start _ 1 (i + 1) (by omega) (by omega),
          laterStages_indexOf_wait _ 1 i (by omega) (by omega) (by omega)]
        split_ifs <;> omega
      · intro i hi
        rw [htrace, ← hlen]
        rw [← hlen] at hi
        simp only [joinOrder, Nat.add_sub_cancel]
        rw [List.indexOf_cons_ne _ (by simp), List.indexOf_cons_ne _ (by simp),
          laterStages_indexOf_start _ 1 (i + 2) (by omega) (by omega),
          laterStages_indexOf_wait _ 1 i (by omega) (by omega) (by omega)]
        split_ifs <;> omega

theorem runPipedCommands_event_order_witness :
    (2 ≤ psGrepAwk.length ∧ AllResolve (envOf fun _ => .exited 0) psGrepAwk ∧
      AllStart (envOf fun _ => .exited 0) psGrepAwk.length psGrepAwk.length ∧
      AllWait (envOf fun _ => .exited 0) psGrepAwk.length) ∧
    eventTrace (envOf fun _ => .exited 0) psGrepAwk
      = [.start 0, .start 1, .wait 0, .start 2, .wait 1, .wait 2] :=
  ⟨⟨by decide, by decide, by decide, by decide⟩,
    (runPipedCommands_event_order (envOf fun _ => .exited 0) psGrepAwk
      (by decide) (by decide) (by decide) (by decide)).2.1⟩

/-- C1 (as amended): for a pipeline of N >= 2 commands in which every stage's name
resolves and every stage starts, the status the main loop stores in `lr` after
`runPipedCommands` returns is 0 when the `Wait` of every stage returned nil and 1
otherwise; it is never another exit code. -/
theorem pipeline_lr_zero_or_one (env : Env) (st : ShellState) (tokens : List String)
    (commands : List (List String)) (hn : 2 ≤ commands.length)
    (hres : AllResolve env commands)
    (hstart : AllStart env commands.length commands.length) :
    (mainBody env st tokens commands).outcome
      = .next { st with lr := if AllWait env commands.length then 0 else 1 } := by
  cases commands with
  | nil => simp at hn
  | cons c rest =>
    cases c with
    | nil => exact absurd (hres [] (by simp)) (fun h => h)
    | cons cmd args =>
      have hr : env.findInPath cmd ≠ "" := hres (cmd :: args) (by simp)
      have hs0 := hstart 0 (by simp)
      have hs : (env.stage 0).pipeOk = true ∧ (env.stage 0).startOk = true :=
        ⟨hs0.1 (by simpa using hn), hs0.2⟩
      have hloop := pipeLoop_result env (rest.length + 1) rest 1 (.pipeRead 0) "" (by omega)
        (fun c hc => hres c (by simp [hc]))
        (fun j _ h2 => ⟨fun h3 => (hstart j (by simp; omega)).1 (by simp; omega),
          (hstart j (by simp; omega)).2⟩)
      have hlt : 1 < ((cmd :: args) :: rest).length := hn
      have hiff : (pipeLoop env (rest.length + 1) 1 rest (.pipeRead 0) "").result = .ok ↔
          AllWait env ((cmd :: args) :: rest).length := by
        rw [hloop.2]
        constructor
        · intro h j hj
          exact h j (by omega) (by simp at hj; omega)
        · intro h j _ hj
          exact h j (by simp; omega)
      simp only [mainBody, hlt, if_true,
        runPipedCommands_cons env cmd args rest hr hs.1 hs.2, after_result]
      by_cases hw : AllWait env ((cmd :: args) :: rest).length
      · rw [hiff.2 hw, if_pos hw]
      · rw [if_neg hw]
        rcases hloop.1 with h | ⟨e, h⟩
        · exact absurd (hiff.1 h) hw
        · rw [h]

theorem pipeline_lr_zero_or_one_witness :
    (2 ≤ psGrepAwk.length ∧ AllResolve (envOf fun _ => .exited 3) psGrepAwk ∧
      AllStart (envOf fun _ => .exited 3) psGrepAwk.length psGrepAwk.length) ∧
    (mainBody (envOf fun _ => .exited 3) ⟨0, "/"⟩
        ["ps", "aux", "|", "grep", "go", "|", "awk", "\x7bprint $1 $2\x7d"] psGrepAwk).outcome
      = .next { (⟨0, "/"⟩ : ShellState) with
          lr := if AllWait (envOf fun _ => .exited 3) psGrepAwk.length then 0 else 1 } :=
  ⟨⟨by decide, by decide, by decide⟩,
    pipeline_lr_zero_or_one (envOf fun _ => .exited 3) ⟨0, "/"⟩
      ["ps", "aux", "|", "grep", "go", "|", "awk", "\x7bprint $1 $2\x7d"] psGrepAwk
      (by decide) (by decide) (by decide)⟩

/-- C1, as stated, fails: in the pipeline `true | ls /nonexistent` with both stages
resolving and starting, the first stage exiting with code 0 and the last with code 2,
the main loop stores 1 in `lr`, not the exit code 2 of the last stage. -/
theorem pipeline_lr_not_last_exit_code :
    (2 ≤ [["true"], ["ls", "/nonexistent"]].length ∧
      AllResolve (envOf fun i => if i = 1 then .exited 2 else .exited 0)
        [["true"], ["ls", "/nonexistent"]] ∧
      AllStart (envOf fun i => if i = 1 then .exited 2 else .exited 0) 2 2) ∧
    exitCode ((envOf fun i => if i = 1 then .exited 2 else .exited 0).stage 1).outcome = 2 ∧
    (mainBody (envOf fun i => if i = 1 then .exited 2 else .exited 0) ⟨0, "/"⟩
        ["true", "|", "ls", "/nonexistent"] [["true"], ["ls", "/nonexistent"]]).outcome
      = .next ⟨1, "/"⟩ := by
  decide

/-- C3 (as amended): each stage's command name is resolved through `findInPath` before
that stage is started, not before every start.  If the stage after `pre` is the first
whose name does not resolve, and the stages of `pre` start and the waits made before it
return nil, then `runPipedCommands` returns the "not found" error naming it and exactly
the stages of `pre` have been started: none only when the failing stage is stage 0. -/
theorem runPipedCommands_notFound (env : Env) (pre : List (List String)) (cmd : String)
    (args : List String) (post : List (List String))
    (hres : AllResolve env pre)
    (hstart : AllStart env pre.length (pre ++ (cmd :: args) :: post).length)
    (hwait : AllWait env (pre.length - 1))
    (hnf : env.findInPath cmd = "") :
    (runPipedCommands env (pre ++ (cmd :: args) :: post)).result
        = .error (.notFound cmd) ∧
      startedStages (runPipedCommands env (pre ++ (cmd :: args) :: post)).events
        = List.range pre.length := by
  cases pre with
  | nil => simp [runPipedCommands, hnf, startedStages]
  | cons c pre =>
    cases c with
    | nil => exact absurd (hres [] (by simp)) (fun h => h)
    | cons cmd0 args0 =>
      have hr : env.findInPath cmd0 ≠ "" := hres (cmd0 :: args0) (by simp)
      have hs0 := hstart 0 (by simp)
      have hs : (env.stage 0).pipeOk = true ∧ (env.stage 0).startOk = true :=
        ⟨hs0.1 (by simp), hs0.2⟩
      have hloop := pipeLoop_notFound env ((pre ++ (cmd :: args) :: post).length + 1)
        cmd args post hnf pre 1 (.pipeRead 0) "" (by omega)
        (fun c hc => hres c (by simp [hc]))
        (fun j _ h2 => ⟨fun h3 => (hstart j (by simp; omega)).1 (by simp; omega),
          (hstart j (by simp; omega)).2⟩)
        (fun j _ h2 => hwait j (by simp; omega))
      rw [List.cons_append, runPipedCommands_cons env cmd0 args0 _ hr hs.1 hs.2,
        after_result, after_events]
      refine ⟨hloop.1, ?_⟩
      rw [List.range_eq_range', List.length_cons, List.range'_succ]
      simpa [startedStages] using hloop.2

theorem runPipedCommands_notFound_witness :
    (AllResolve (envMissing "nosuch" fun _ => .exited 0) [["ls", "-l"], ["sort"]] ∧
      AllStart (envMissing "nosuch" fun _ => .exited 0) [["ls", "-l"], ["sort"]].length
        ([["ls", "-l"], ["sort"]] ++ ["nosuch", "-x"] :: [["wc"]]).length ∧
      AllWait (envMissing "nosuch" fun _ => .exited 0)
        ([["ls", "-l"], ["sort"]].length - 1) ∧
      (envMissing "nosuch" fun _ => .exited 0).findInPath "nosuch" = "") ∧
    ((runPipedCommands (envMissing "nosuch" fun _ => .exited 0)
        ([["ls", "-l"], ["sort"]] ++ ["nosuch", "-x"] :: [["wc"]])).result
        = .error (.notFound "nosuch") ∧
      startedStages (runPipedCommands (envMissing "nosuch" fun _ => .exited 0)
        ([["ls", "-l"], ["sort"]] ++ ["nosuch", "-x"] :: [["wc"]])).events
        = List.range [["ls", "-l"], ["sort"]].length) :=
  ⟨⟨by decide, by decide, by decide, by decide⟩,
    runPipedCommands_notFound (envMissing "nosuch" fun _ => .exited 0)
      [["ls", "-l"], ["sort"]] "nosuch" ["-x"] [["wc"]]
      (by decide) (by decide) (by decide) (by decide)⟩

/-- C3, as stated, fails: in `ls | nosuch`, where `ls` resolves and `nosuch` does not,
`runPipedCommands` returns the "not found" error after stage 0 has been started. -/
theorem runPipedCommands_notFound_after_start :
    (runPipedCommands (envMissing "nosuch" fun _ => .exited 0) [["ls"], ["nosuch"]]).result
        = .error (.notFound "nosuch") ∧
      startedStages
        (runPipedCommands (envMissing "nosuch" fun _ => .exited 0) [["ls"], ["nosuch"]]).events
        = [0] := by
  decide

/-- C5: in the pipeline `cat | wc -l`, stage 0 is started with its standard input left
unset (the nil field, which `os/exec` connects to the null device), not with `os.Stdin`.
Its standard output is the write end of pipe 0, whose read end is the standard input of
stage 1. -/
theorem runPipedCommands_stage0_stdin_unset :
    (runPipedCommands (envOf fun _ => .exited 0) [["cat"], ["wc", "-l"]]).events
      = [.start 0 ⟨"cat", [], .unset, .pipeWrite 0, .unset⟩,
         .start 1 ⟨"wc", ["-l"], .pipeRead 0, .osStdout, .osStderr⟩,
         .wait 0, .wait 1] ∧
      Stream.unset ≠ Stream.osStdin := by
  decide

/-- C6: in the pipeline `false | cat`, where every stage resolves and starts and stage 0
exits with code 1, the wait on stage 0 fails and `runPipedCommands` returns the error
`cat: failed: ...`: it names stage 1, not stage 0 (`false`), whose wait failed. -/
theorem runPipedCommands_wait_error_names_next_stage :
    cmdWait 0 ((envOf fun i => if i = 0 then .exited 1 else .exited 0).stage 0).outcome
        = some (.exitError 0 (.exited 1)) ∧
      runPipedCommands (envOf fun i => if i = 0 then .exited 1 else .exited 0)
          [["false"], ["cat"]]
        = ⟨[.start 0 ⟨"false", [], .unset, .pipeWrite 0, .unset⟩,
            .start 1 ⟨"cat", [], .pipeRead 0, .osStdout, .osStderr⟩,
            .wait 0],
          .error (.waitFailed "cat" (.exitError 0 (.exited 1)))⟩ := by
  decide

/-! ## The pipeline splitter -/

theorem splitTokens_ne_nil (ts cur : List String) : splitTokens ts cur ≠ [] := by
  induction ts generalizing cur with
  | nil => simp [splitTokens]
  | cons t ts ih =>
    by_cases h : t = "|"
    · simp [splitTokens, h]
    · simpa [splitTokens, h] using ih (cur ++ [t])

theorem splitTokens_length (ts : List String) :
    ∀ cur, (splitTokens ts cur).length = ts.count "|" + 1 := by
  induction ts with
  | nil => intro cur; simp [splitTokens]
  | cons t ts ih =>
    intro cur
    by_cases h : t = "|"
    · simp [splitTokens, h, ih]
    · simp [splitTokens, h, ih, List.count_cons]

theorem intercalate_pipe_cons (x : List String) (l : List (List String)) (hl : l ≠ []) :
    List.intercalate ["|"] (x :: l) = x ++ "|" :: List.intercalate ["|"] l := by
  cases l with
  | nil => exact absurd rfl hl
  | cons y l => simp [List.intercalate]

theorem splitTokens_intercalate (ts : List String) :
    ∀ cur, List.intercalate ["|"] (splitTokens ts cur) = cur ++ ts := by
  induction ts with
  | nil => intro cur; simp [splitTokens, List.intercalate]
  | cons t ts ih =>
    intro cur
    by_cases h : t = "|"
    · rw [splitTokens, if_pos h, intercalate_pipe_cons _ _ (splitTokens_ne_nil ts []), ih, h]
      simp
    · rw [splitTokens, if_neg h, ih]
      simp

theorem splitTokens_no_pipe (ts : List String) :
    ∀ cur, "|" ∉ cur → ∀ c ∈ splitTokens ts cur, "|" ∉ c := by
  induction ts with
  | nil => intro cur hc c hmem; simp [splitTokens] at hmem; rw [hmem]; exact hc
  | cons t ts ih =>
    intro cur hc c hmem
    by_cases h : t = "|"
    · rw [splitTokens, if_pos h, List.mem_cons] at hmem
      rcases hmem with h1 | h1
      · rw [h1]; exact hc
      · exact ih [] (by simp) c h1
    · rw [splitTokens, if_neg h] at hmem
      refine ih (cur ++ [t]) ?_ c hmem
      simp only [List.mem_append, List.mem_singleton, not_or]
      exact ⟨hc, fun h2 => h h2.symm⟩

theorem splitTokens_nonempty (ts : List String) :
    ∀ cur, (cur = [] → ts ≠ [] ∧ ts.head? ≠ some "|") → ts.getLast? ≠ some "|" →
      (ts.Chain' fun a b => ¬ (a = "|" ∧ b = "|")) →
      ∀ c ∈ splitTokens ts cur, c ≠ [] := by
  induction ts with
  | nil =>
    intro cur hcur _ _ c hmem
    simp [splitTokens] at hmem
    rw [hmem]
    intro h
    exact (hcur h).1 rfl
  | cons t ts ih =>
    intro cur hcur hlast hchain c hmem
    by_cases h : t = "|"
    · rw [splitTokens, if_pos h, List.mem_cons] at hmem
      have hcur2 : cur ≠ [] := fun hc => (hcur hc).2 (by simp [h])
      rcases hmem with h1 | h1
      · rw [h1]; exact hcur2
      · cases ts with
        | nil => simp [h] at hlast
        | cons u us =>
          refine ih [] (fun _ => ⟨by simp, ?_⟩) (by simpa using hlast)
            (List.chain'_cons.1 hchain).2 c h1
          have := (List.chain'_cons.1 hchain).1
          simp only [List.head?_cons, ne_eq, Option.some.injEq]
          intro hu
          exact this ⟨h, hu⟩
    · rw [splitTokens, if_neg h] at hmem
      cases ts with
      | nil =>
        simp [splitTokens] at hmem
        rw [hmem]; simp
      | cons u us =>
        exact ih (cur ++ [t]) (fun hc => absurd hc (by simp)) (by simpa using hlast)
          (List.chain'_cons.1 hchain).2 c hmem

/-- C7: for a non-empty token sequence with k tokens `"|"`, none of them first, last or
next to another, `GetPipeSeparatedCommands` returns exactly k+1 argument vectors, each
non-empty and free of `"|"`, and joining them with one `"|"` token between consecutive
vectors gives back the token sequence; for zero tokens it returns nil. -/
theorem GetPipeSeparatedCommands_split (tokens : List String) :
    GetPipeSeparatedCommands [] = [] ∧
      (tokens ≠ [] → PipesWellPlaced tokens →
        (GetPipeSeparatedCommands tokens).length = tokens.count "|" + 1 ∧
          (∀ c ∈ GetPipeSeparatedCommands tokens, c ≠ [] ∧ "|" ∉ c) ∧
          List.intercalate ["|"] (GetPipeSeparatedCommands tokens) = tokens) := by
  refine ⟨rfl, fun hne hwp => ?_⟩
  simp only [GetPipeSeparatedCommands, if_neg hne]
  refine ⟨splitTokens_length tokens [], fun c hc => ⟨?_, ?_⟩, ?_⟩
  · exact splitTokens_nonempty tokens [] (fun _ => ⟨hne, hwp.1⟩) hwp.2.1 hwp.2.2 c hc
  · exact splitTokens_no_pipe tokens [] (by simp) c hc
  · simpa using splitTokens_intercalate tokens []

theorem GetPipeSeparatedCommands_split_witness :
    (["ps", "aux", "|", "grep", "go", "|", "wc"] ≠ [] ∧
      PipesWellPlaced ["ps", "aux", "|", "grep", "go", "|", "wc"]) ∧
    ((GetPipeSeparatedCommands ["ps", "aux", "|", "grep", "go", "|", "wc"]).length
        = List.count "|" ["ps", "aux", "|", "grep", "go", "|", "wc"] + 1 ∧
      (∀ c ∈ GetPipeSeparatedCommands ["ps", "aux", "|", "grep", "go", "|", "wc"],
        c ≠ [] ∧ "|" ∉ c) ∧
      List.intercalate ["|"]
          (GetPipeSeparatedCommands ["ps", "aux", "|", "grep", "go", "|", "wc"])
        = ["ps", "aux", "|", "grep", "go", "|", "wc"]) :=
  ⟨⟨by decide, by simp [PipesWellPlaced]⟩,
    (GetPipeSeparatedCommands_split ["ps", "aux", "|", "grep", "go", "|", "wc"]).2
      (by decide) (by simp [PipesWellPlaced])⟩

/-! ## The tokenizer on blank lines -/

theorem scanTokens_separators (cs : List Char) (h : ∀ c ∈ cs, isSeparator c = true) :
    scanTokens cs .plain none = [] := by
  induction cs with
  | nil => simp [scanTokens]
  | cons c cs ih =>
    have hc : isSeparator c = true := h c (by simp)
    simp only [scanTokens, hc, if_true]
    exact ih fun d hd => h d (by simp [hd])

theorem mem_of_mem_stripLineEnd (cs : List Char) (c : Char) (h : c ∈ stripLineEnd cs) :
    c ∈ cs := by
  unfold stripLineEnd at h
  rw [List.mem_reverse] at h
  exact List.mem_reverse.1 ((List.dropWhile_sublist _).subset h)

/-- C8: for every input line made only of separator characters (space, tab, carriage
return, newline), the empty line included, `ParseInput` returns nil, not a sequence
holding an empty string, and the iteration of the main loop starts no process and
leaves the state (`lr` and the working directory) unchanged. -/
theorem ParseInput_blank (input : String)
    (h : ∀ c ∈ input.toList, isSeparator c = true) :
    ParseInput input = [] ∧ ParseInput input ≠ [""] ∧
      ∀ (env : Env) (st : ShellState),
        mainIteration env st (.line input) = ⟨[], .next st⟩ := by
  have hp : ParseInput input = [] :=
    scanTokens_separators _ fun c hc => h c (mem_of_mem_stripLineEnd _ c hc)
  refine ⟨hp, by rw [hp]; simp, fun env st => ?_⟩
  simp [mainIteration, mainIterationWith, hp]

theorem ParseInput_blank_witness :
    (∀ c ∈ " \t \r\n".toList, isSeparator c = true) ∧
    (ParseInput " \t \r\n" = [] ∧ ParseInput " \t \r\n" ≠ [""] ∧
      ∀ (env : Env) (st : ShellState),
        mainIteration env st (.line " \t \r\n") = ⟨[], .next st⟩) :=
  ⟨by decide, ParseInput_blank " \t \r\n" (by decide)⟩

/-! ## Single commands -/

/-- C9 (as amended): for every single-command line whose command name is not empty, is
not one of the six builtin names, and for which `findInPath` finds nothing, the
iteration sets `lr` to 1, starts no child process, leaves the working directory
unchanged and does not terminate the interpreter; and every single-command line whose
command name is the empty string is skipped: no process is started and the whole state,
`lr` included, is unchanged. -/
theorem command_not_found (env : Env) (st : ShellState) (cmd : String)
    (args : List String) :
    (cmd ≠ "" → cmd ∉ builtins → env.findInPath cmd = "" →
      mainBody env st (cmd :: args) [cmd :: args]
        = ⟨[], .next { lr := 1, cwd := st.cwd }⟩) ∧
      mainBody env st ("" :: args) ["" :: args] = ⟨[], .next st⟩ := by
  constructor
  · intro hne hb hnf
    simp only [builtins, List.mem_cons, List.mem_singleton, List.not_mem_nil, or_false,
      not_or] at hb
    obtain ⟨h1, h2, h3, h4, h5, h6⟩ := hb
    simp [mainBody, runCommand, hne, h1, h2, h3, h4, h5, h6, hnf]
  · simp [mainBody]

theorem command_not_found_witness :
    ("nosuch" ≠ "" ∧ "nosuch" ∉ builtins ∧
      (envMissing "nosuch" fun _ => .exited 0).findInPath "nosuch" = "") ∧
    mainBody (envMissing "nosuch" fun _ => .exited 0) ⟨7, "/home"⟩ ("nosuch" :: ["-x"])
        ["nosuch" :: ["-x"]]
      = ⟨[], .next { lr := 1, cwd := (⟨7, "/home"⟩ : ShellState).cwd }⟩ ∧
    mainBody (envMissing "nosuch" fun _ => .exited 0) ⟨7, "/home"⟩ ("" :: ["-x"])
        ["" :: ["-x"]]
      = ⟨[], .next ⟨7, "/home"⟩⟩ :=
  ⟨⟨by decide, by decide, by decide⟩,
    (command_not_found (envMissing "nosuch" fun _ => .exited 0) ⟨7, "/home"⟩ "nosuch"
      ["-x"]).1 (by decide) (by decide) (by decide),
    (command_not_found (envMissing "nosuch" fun _ => .exited 0) ⟨7, "/home"⟩ "nosuch"
      ["-x"]).2⟩

/-- C9, as stated, fails: the empty command name is not a builtin and is not found by
`findInPath`, yet the iteration is skipped by the guard `cmd == ""` and `lr` keeps its
value 7 instead of becoming 1. -/
theorem empty_command_name_keeps_lr :
    ("" ∉ builtins ∧ (envMissing "" fun _ => .exited 0).findInPath "" = "") ∧
    mainBody (envMissing "" fun _ => .exited 0) ⟨7, "/home"⟩ [""] [[""]]
      = ⟨[], .next ⟨7, "/home"⟩⟩ := by
  decide

/-- The line holding only two single quotes is tokenized into one empty token, so the
guard `cmd == ""` of the main loop is reached from an input line, and `lr` keeps its
value 7. -/
theorem quoted_empty_line_reaches_guard :
    ParseInput "''\n" = [""] ∧
      mainIteration (envMissing "" fun _ => .exited 0) ⟨7, "/home"⟩ (.line "''\n")
        = ⟨[], .next ⟨7, "/home"⟩⟩ := by
  decide

/-- The pointer returned by `Wait` is never the address of the local `exitErr`. -/
theorem errorsIs_cmdWait (heap : Nat) (o : ProcOutcome) (err : GoError)
    (h : cmdWait heap o = some err) : errorsIs err (heap + 1) = false := by
  cases o with
  | exited c =>
    cases c with
    | zero => simp [cmdWait] at h
    | succ c => simp [cmdWait] at h; subst h; simp [errorsIs]
  | signaled => simp [cmdWait] at h; subst h; simp [errorsIs]
  | waitError => simp [cmdWait] at h; subst h; simp [errorsIs]

/-- C2: the single command `ls /nonexistent` resolves, starts and exits normally with
code 2; `Wait` returns an `*exec.ExitError`, the test `errors.Is(err, &exitErr)` is
false, and the iteration stores 1 in `lr`, not the child's exit code 2. -/
theorem single_command_exit_code_lost :
    ("ls" ∉ builtins ∧ (envOf fun _ => .exited 2).findInPath "ls" ≠ "" ∧
      ((envOf fun _ => .exited 2).stage 0).startOk = true ∧
      exitCode ((envOf fun _ => .exited 2).stage 0).outcome = 2) ∧
    mainBody (envOf fun _ => .exited 2) ⟨0, "/home"⟩ ["ls", "/nonexistent"]
        [["ls", "/nonexistent"]]
      = ⟨[.start 0 ⟨"ls", ["/nonexistent"], .osStdin, .osStdout, .osStderr⟩, .wait 0],
          .next ⟨1, "/home"⟩⟩ := by
  decide

/-! ## Termination of the interpreter -/

theorem pipeLoop_in_range (env : Env) (n : Nat) (rest : List (List String)) :
    ∀ (i : Nat) (prev : Stream) (lc : String), (∀ c ∈ rest, c ≠ []) →
      (pipeLoop env n i rest prev lc).result ≠ .indexOutOfRange := by
  induction rest with
  | nil =>
    intro i prev lc _
    unfold pipeLoop
    split <;> simp
  | cons c rest ih =>
    intro i prev lc hne
    cases c with
    | nil => exact absurd rfl (hne [] (by simp))
    | cons cmd args =>
      have ih2 := fun i prev lc => ih i prev lc fun c hc => hne c (by simp [hc])
      unfold pipeLoop
      simp only
      split_ifs
      all_goals first
        | (simp; done)
        | (cases cmdWait env.heap (env.stage (i - 1)).outcome
           · simpa [after_result] using ih2 _ _ _
           · simp)

theorem runPipedCommands_in_range (env : Env) (commands : List (List String))
    (h : IsPipeline commands) :
    (runPipedCommands env commands).result ≠ .indexOutOfRange := by
  cases commands with
  | nil => exact absurd rfl h.1
  | cons c rest =>
    cases c with
    | nil => exact absurd rfl (h.2 [] (by simp))
    | cons cmd args =>
      unfold runPipedCommands
      simp only
      split_ifs
      all_goals first
        | (simp; done)
        | simpa [after_result] using
            pipeLoop_in_range env _ rest _ _ _ fun c hc => h.2 c (by simp [hc])

/-- Every branch of the `switch` of `main` other than `exit` goes on to the next
iteration. -/
theorem runCommand_next (env : Env) (st : ShellState) (cmd : String)
    (args : List String) (h : cmd ≠ "exit") :
    ∃ s, (runCommand env st cmd args).outcome = .next s := by
  unfold runCommand
  simp only [h, if_false]
  cases args with
  | nil =>
    simp only [List.length_nil, Nat.lt_one_iff, if_true, List.nil_append, startCommand]
    repeat' (first | exact ⟨_, rfl⟩ | split)
  | cons a rest =>
    have hlen : ¬ (a :: rest).length < 1 := by simp
    simp only [hlen, if_false, startCommand]
    repeat' (first | exact ⟨_, rfl⟩ | split)

/-- The `switch` of `main` never indexes out of range, and it ends the process exactly
for `exit` without argument (code 0) and `exit` with an integer first argument. -/
theorem runCommand_outcome (env : Env) (st : ShellState) (cmd : String)
    (args : List String) :
    (runCommand env st cmd args).outcome ≠ .indexOutOfRange ∧
      ∀ code, (runCommand env st cmd args).outcome = .terminated code ↔
        cmd = "exit" ∧
          ((args = [] ∧ code = 0) ∨ ∃ a rest, args = a :: rest ∧ Atoi a = some code) := by
  by_cases h1 : cmd = "exit"
  · unfold runCommand
    simp only [h1, if_true, true_and]
    cases args with
    | nil =>
      refine ⟨by simp, fun code => ?_⟩
      simp only [Outcome.terminated.injEq, true_and, reduceCtorEq, exists_false,
        and_false, or_false, false_and]
      exact eq_comm
    | cons a rest =>
      cases h : Atoi a with
      | none => simp [h]
      | some ret => simp [h]
  · obtain ⟨s, hs⟩ := runCommand_next env st cmd args h1
    simp [hs, h1]

/-- The body of the loop, on a well-formed pipeline value: it never indexes out of
range, and it ends the process exactly for a single command `exit` without argument or
with an integer first argument. -/
theorem mainBody_outcome (env : Env) (st : ShellState) (tokens : List String)
    (commands : List (List String)) (hP : IsPipeline commands) :
    (mainBody env st tokens commands).outcome ≠ .indexOutOfRange ∧
      ∀ code, (mainBody env st tokens commands).outcome = .terminated code ↔
        ∃ argv, commands = ["exit" :: argv] ∧
          ((tokens.tail = [] ∧ code = 0) ∨
            ∃ a rest, tokens.tail = a :: rest ∧ Atoi a = some code) := by
  by_cases hl : 1 < commands.length
  · have hr := runPipedCommands_in_range env commands hP
    have hne : ∀ argv, commands ≠ ["exit" :: argv] := by
      intro argv h; rw [h] at hl; simp at hl
    simp only [mainBody, hl, if_true]
    cases hres : (runPipedCommands env commands).result with
    | ok => simp [hne]
    | error e => simp [hne]
    | indexOutOfRange => exact absurd hres hr
  · cases commands with
    | nil => exact absurd rfl hP.1
    | cons c rest =>
      cases c with
      | nil => exact absurd rfl (hP.2 [] (by simp))
      | cons cmd argv =>
        have hrest : rest = [] := by
          cases rest with
          | nil => rfl
          | cons d ds => simp at hl
        subst hrest
        simp only [mainBody, hl, if_false]
        by_cases he : cmd = ""
        · have : cmd ≠ "exit" := by rw [he]; decide
          simp [he, this]
        · have h := runCommand_outcome env st cmd tokens.tail
          simp only [he, if_false]
          refine ⟨h.1, fun code => ?_⟩
          rw [h.2 code]
          simp

/-- On a line whose split is a well-formed pipeline value, one iteration of the main
loop ends the interpreter exactly in these cases: end of input (code 0), a single
command `exit` with no argument (code 0), or a single command `exit` whose first
argument parses as an integer n (code n).  `exit` with a first argument that is not an
integer does not end it and sets `lr` to 1.  No slice is indexed out of range. -/
theorem main_terminates_iff (parse : String → List String)
    (split : List String → List (List String)) (env : Env) (st : ShellState)
    (rd : ReadResult)
    (hpipe : ∀ input, rd = .line input → parse input ≠ [] →
      IsPipeline (split (parse input))) :
    (mainIterationWith parse split env st rd).outcome ≠ .indexOutOfRange ∧
      (∀ code, (mainIterationWith parse split env st rd).outcome = .terminated code ↔
        (rd = .eof ∧ code = 0) ∨
          ∃ input argv, rd = .line input ∧ parse input ≠ [] ∧
            split (parse input) = ["exit" :: argv] ∧
            (((parse input).tail = [] ∧ code = 0) ∨
              ∃ a rest, (parse input).tail = a :: rest ∧ Atoi a = some code)) ∧
      (∀ input argv a rest, rd = .line input → parse input ≠ [] →
        split (parse input) = ["exit" :: argv] → (parse input).tail = a :: rest →
        Atoi a = none →
        (mainIterationWith parse split env st rd).outcome
          = .next { lr := 1, cwd := st.cwd }) := by
  cases rd with
  | eof =>
    refine ⟨by simp [mainIterationWith], fun code => ?_, ?_⟩
    · simp only [mainIterationWith, Outcome.terminated.injEq, true_and, reduceCtorEq,
        false_and, exists_false, or_false]
      exact eq_comm
    · intro input argv a rest h; cases h
  | failed =>
    refine ⟨by simp [mainIterationWith], fun code => by simp [mainIterationWith], ?_⟩
    intro input argv a rest h; cases h
  | line input =>
    by_cases ht : parse input = []
    · refine ⟨by simp [mainIterationWith, ht], fun code => ?_, ?_⟩
      · simp only [mainIterationWith, ht, if_true, reduceCtorEq, false_and, false_or,
          false_iff, not_exists]
        intro i argv h
        have hi : input = i := by injection h.1
        subst hi
        exact h.2.1 ht
      · intro i argv a rest h hne
        have hi : input = i := by injection h
        subst hi
        exact absurd ht hne
    · have hP := hpipe input rfl ht
      have hb := mainBody_outcome env st (parse input) (split (parse input)) hP
      refine ⟨by simpa [mainIterationWith, ht] using hb.1, fun code => ?_, ?_⟩
      · simp only [mainIterationWith, ht, if_false, hb.2 code, reduceCtorEq, false_and,
          false_or]
        constructor
        · rintro ⟨argv, h1, h2⟩
          exact ⟨input, argv, rfl, ht, h1, h2⟩
        · rintro ⟨i, argv, h0, _, h1, h2⟩
          have hi : input = i := by injection h0
          subst hi
          exact ⟨argv, h1, h2⟩
      · intro i argv a rest h0 _ h1 h2 h3
        have hi : input = i := by injection h0
        subst hi
        have hcmd : ("exit" : String) ≠ "" := by decide
        simp [mainIterationWith, ht, mainBody, h1, runCommand, h2, h3, hcmd]

theorem main_terminates_iff_witness :
    (∀ input, ReadResult.line "exit 3\n" = .line input → ParseInput input ≠ [] →
      IsPipeline (GetPipeSeparatedCommands (ParseInput input))) ∧
    (mainIterationWith ParseInput GetPipeSeparatedCommands (envOf fun _ => .exited 0)
        ⟨0, "/home"⟩ (.line "exit 3\n")).outcome = .terminated 3 :=
  ⟨fun input h => by cases h; decide,
    ((main_terminates_iff ParseInput GetPipeSeparatedCommands (envOf fun _ => .exited 0)
        ⟨0, "/home"⟩ (.line "exit 3\n") (fun input h => by cases h; decide)).2.1 3).2
      (Or.inr ⟨"exit 3\n", ["3"], rfl, by decide, by decide,
        Or.inr ⟨"3", [], by decide, by decide⟩⟩)⟩

/-- When the splitter returns no argument vector, or an empty first one, the body of
the loop indexes out of range, whatever the tokens and the other vectors are. -/
theorem mainBody_no_command_name (env : Env) (st : ShellState) (tokens : List String)
    (rest : List (List String)) :
    mainBody env st tokens [] = ⟨[], .indexOutOfRange⟩ ∧
      mainBody env st tokens ([] :: rest) = ⟨[], .indexOutOfRange⟩ := by
  constructor
  · simp [mainBody]
  · by_cases h : 1 < ([] :: rest : List (List String)).length
    · simp only [mainBody, h, if_true, runPipedCommands]
    · simp only [mainBody, h, if_false]

/-- C10: the line holding only `|` is neither end of input nor an `exit` command, yet
it ends the interpreter: its one token `"|"` is split into two empty argument vectors,
and `commands[0][0]` in `runPipedCommands` is out of range.  The line `ls |` does the
same at `commands[1][0]`, after `ls` has been started. -/
theorem pipe_only_line_index_out_of_range :
    (ParseInput "|\n" = ["|"] ∧ GetPipeSeparatedCommands ["|"] = [[], []] ∧
      mainIteration (envOf fun _ => .exited 0) ⟨0, "/home"⟩ (.line "|\n")
        = ⟨[], .indexOutOfRange⟩) ∧
    (GetPipeSeparatedCommands (ParseInput "ls |\n") = [["ls"], []] ∧
      mainIteration (envOf fun _ => .exited 0) ⟨0, "/home"⟩ (.line "ls |\n")
        = ⟨[.start 0 ⟨"ls", [], .unset, .pipeWrite 0, .unset⟩], .indexOutOfRange⟩) := by
  decide

/-! ## Resolution comes before the start of each stage -/

theorem pipeLoop_started_resolved (env : Env) (n : Nat) (rest : List (List String)) :
    ∀ (i : Nat) (prev : Stream) (lc : String) (j : Nat),
      j ∈ startedStages (pipeLoop env n i rest prev lc).events →
      i ≤ j ∧ ∃ c, rest[j - i]? = some c ∧ Resolves env c := by
  induction rest with
  | nil =>
    intro i prev lc j hj
    unfold pipeLoop at hj
    split at hj <;> simp [startedStages] at hj
  | cons c rest ih =>
    intro i prev lc j hj
    cases c with
    | nil => simp [pipeLoop, startedStages] at hj
    | cons cmd args =>
      by_cases hr : env.findInPath cmd = ""
      · simp [pipeLoop, hr, startedStages] at hj
      · by_cases hp : (i < n - 1 → (env.stage i).pipeOk = true) ∧
            (env.stage i).startOk = true
        · obtain ⟨nc, p2, heq⟩ := pipeLoop_cons env n i cmd args rest prev lc hr hp.1 hp.2
          rw [heq] at hj
          have hhere : i ≤ i ∧ ∃ c, ((cmd :: args) :: rest)[i - i]? = some c ∧
              Resolves env c := ⟨Nat.le_refl _, cmd :: args, by simp, hr⟩
          cases hw : cmdWait env.heap (env.stage (i - 1)).outcome with
          | some err =>
            rw [hw] at hj
            simp only [startedStages, List.mem_singleton] at hj
            rw [hj]; exact hhere
          | none =>
            rw [hw] at hj
            simp only [after_events, List.cons_append, List.nil_append, startedStages,
              List.mem_cons] at hj
            rcases hj with hj | hj
            · rw [hj]; exact hhere
            · obtain ⟨h1, c, h2, h3⟩ := ih (i + 1) p2 cmd j hj
              refine ⟨by omega, c, ?_, h3⟩
              have : j - i = (j - (i + 1)) + 1 := by omega
              rw [this, List.getElem?_cons_succ]
              exact h2
        · unfold pipeLoop at hj
          simp only [hr, if_false] at hj
          split_ifs at hj <;> first
            | (simp [startedStages] at hj; done)
            | exact absurd ⟨fun _ => by assumption, by assumption⟩ hp
            | exact absurd ⟨fun h => absurd h (by assumption), by assumption⟩ hp

/-- In every run of `runPipedCommands`, whatever fails, a stage that has been started is
a stage whose command name `findInPath` resolved. -/
theorem runPipedCommands_started_resolved (env : Env) (commands : List (List String))
    (j : Nat) (hj : j ∈ startedStages (runPipedCommands env commands).events) :
    ∃ c, commands[j]? = some c ∧ Resolves env c := by
  cases commands with
  | nil => simp [runPipedCommands, startedStages] at hj
  | cons c rest =>
    cases c with
    | nil => simp [runPipedCommands, startedStages] at hj
    | cons cmd args =>
      by_cases hr : env.findInPath cmd = ""
      · simp [runPipedCommands, hr, startedStages] at hj
      · by_cases hp : (env.stage 0).pipeOk = true
        · by_cases hs : (env.stage 0).startOk = true
          · rw [runPipedCommands_cons env cmd args rest hr hp hs] at hj
            simp only [after_events, List.singleton_append, startedStages,
              List.mem_cons] at hj
            rcases hj with hj | hj
            · rw [hj]; exact ⟨cmd :: args, by simp, hr⟩
            · obtain ⟨h1, c, h2, h3⟩ := pipeLoop_started_resolved env _ rest 1 _ _ j hj
              refine ⟨c, ?_, h3⟩
              have : j = (j - 1) + 1 := by omega
              rw [this, List.getElem?_cons_succ]
              exact h2
          · simp [runPipedCommands, hr, hp, hs, startedStages] at hj
        · simp [runPipedCommands, hr, hp, startedStages] at hj

/-! ## The configuration of stage 0 and the name in a wait error -/

/-- Whenever stage 0 resolves and starts, it is started with its standard input and
standard error unset and its standard output on the write end of pipe 0. -/
theorem runPipedCommands_stage0_config (env : Env) (cmd : String) (args : List String)
    (rest : List (List String)) (hres : env.findInPath cmd ≠ "")
    (hpipe : (env.stage 0).pipeOk = true) (hstart : (env.stage 0).startOk = true) :
    (runPipedCommands env ((cmd :: args) :: rest)).events.head?
      = some (.start 0 ⟨cmd, args, .unset, .pipeWrite 0, .unset⟩) := by
  rw [runPipedCommands_cons env cmd args rest hres hpipe hstart]
  simp [after_events, stdoutPipe, execCommand]

theorem pipeLoop_wait_fails (env : Env) (n : Nat) (cmd : String) (args : List String)
    (post : List (List String)) (err : GoError) (hres2 : env.findInPath cmd ≠ "")
    (pre : List (List String)) :
    ∀ (i : Nat) (prev : Stream) (lc : String), 1 ≤ i →
      (∀ c ∈ pre, Resolves env c) →
      (∀ j, i ≤ j → j < i + pre.length + 1 →
        (j < n - 1 → (env.stage j).pipeOk = true) ∧ (env.stage j).startOk = true) →
      (∀ j, i - 1 ≤ j → j + 1 < i + pre.length →
        cmdWait env.heap (env.stage j).outcome = none) →
      cmdWait env.heap (env.stage (i + pre.length - 1)).outcome = some err →
      (pipeLoop env n i (pre ++ (cmd :: args) :: post) prev lc).result
        = .error (.waitFailed cmd err) := by
  induction pre with
  | nil =>
    intro i prev lc hi _ hst _ hfail
    have hs := hst i (Nat.le_refl _) (by simp)
    obtain ⟨nc, p2, heq⟩ := pipeLoop_cons env n i cmd args post prev lc hres2 hs.1 hs.2
    simp only [List.length_nil, Nat.add_zero] at hfail
    rw [List.nil_append, heq, hfail]
  | cons c pre ih =>
    intro i prev lc hi hres hst hw hfail
    cases c with
    | nil => exact absurd (hres [] (by simp)) (fun h => h)
    | cons cmd2 args2 =>
      have hr : env.findInPath cmd2 ≠ "" := hres (cmd2 :: args2) (by simp)
      have hs := hst i (Nat.le_refl _) (by simp only [List.length_cons]; omega)
      obtain ⟨nc, p2, heq⟩ :=
        pipeLoop_cons env n i cmd2 args2 (pre ++ (cmd :: args) :: post) prev lc hr hs.1 hs.2
      have hw0 := hw (i - 1) (Nat.le_refl _) (by simp; omega)
      rw [List.cons_append, heq, hw0]
      simp only [after_result]
      refine ih (i + 1) p2 cmd2 (by omega) (fun c hc => hres c (by simp [hc]))
        (fun j h1 h2 => hst j (by omega) (by simp; omega))
        (fun j h1 h2 => hw j (by omega) (by simp; omega)) ?_
      have : i + 1 + pre.length - 1 = i + (pre.length + 1) - 1 := by omega
      rw [this]
      simpa using hfail

/-- When the wait on a stage that is not the last one fails, all earlier steps having
succeeded, the error returned by `runPipedCommands` carries the command name of the
stage after it. -/
theorem runPipedCommands_wait_fails_name (env : Env) (pre : List (List String))
    (cmdK : String) (argsK : List String) (cmdN : String) (argsN : List String)
    (post : List (List String)) (err : GoError)
    (hres : AllResolve env (pre ++ [cmdK :: argsK, cmdN :: argsN]))
    (hstart : AllStart env (pre.length + 2)
      (pre ++ (cmdK :: argsK) :: (cmdN :: argsN) :: post).length)
    (hwait : AllWait env pre.length)
    (hfail : cmdWait env.heap (env.stage pre.length).outcome = some err) :
    (runPipedCommands env (pre ++ (cmdK :: argsK) :: (cmdN :: argsN) :: post)).result
      = .error (.waitFailed cmdN err) := by
  have hN : env.findInPath cmdN ≠ "" := hres (cmdN :: argsN) (by simp)
  have hK : env.findInPath cmdK ≠ "" := hres (cmdK :: argsK) (by simp)
  cases pre with
  | nil =>
    have hs0 := hstart 0 (by simp)
    rw [List.nil_append,
      runPipedCommands_cons env cmdK argsK _ hK (hs0.1 (by simp)) hs0.2, after_result]
    exact pipeLoop_wait_fails env _ cmdN argsN post err hN [] 1 _ _ (by omega)
      (by simp)
      (fun j h1 h2 => ⟨fun h3 => (hstart j (by simp at h2 ⊢; omega)).1
          (by simp at h3 ⊢; omega), (hstart j (by simp at h2 ⊢; omega)).2⟩)
      (fun j h1 h2 => by simp at h2)
      (by simpa using hfail)
  | cons c pre =>
    cases c with
    | nil => exact absurd (hres [] (by simp)) (fun h => h)
    | cons cmd0 args0 =>
      have h0 : env.findInPath cmd0 ≠ "" := hres (cmd0 :: args0) (by simp)
      have hs0 := hstart 0 (by simp)
      have hl : (pre ++ (cmdK :: argsK) :: (cmdN :: argsN) :: post)
          = (pre ++ [cmdK :: argsK]) ++ (cmdN :: argsN) :: post := by simp
      rw [List.cons_append,
        runPipedCommands_cons env cmd0 args0 _ h0 (hs0.1 (by simp)) hs0.2, after_result, hl]
      refine pipeLoop_wait_fails env _ cmdN argsN post err hN (pre ++ [cmdK :: argsK]) 1 _ _
        (by omega) ?_ ?_ ?_ ?_
      · intro c hc
        simp only [List.mem_append, List.mem_singleton] at hc
        rcases hc with hc | hc
        · exact hres c (by simp [hc])
        · exact hres c (by simp [hc])
      · intro j h1 h2
        simp only [List.length_append, List.length_singleton] at h2
        have hj := hstart j (by simp; omega)
        refine ⟨fun h3 => hj.1 ?_, hj.2⟩
        simp at h3 ⊢
        omega
      · intro j h1 h2
        simp only [List.length_append, List.length_singleton] at h2
        exact hwait j (by simp; omega)
      · simpa using hfail

end LilShell
